import Mathlib

/-!
The file `utils.c` of cuda_bitcoin_miner.

A shallow embedding of the four routines of `utils.c`:

* `diff` and `get_execution_time` (elapsed time between two `struct timespec`),
* `initialize_nonce_result`,
* `set_difficulty` (expansion of the compact difficulty `nBits` into a
  32-byte target).

Machine integers are mathematical integers with explicit wrap-around:
`unsigned int` is reduced modulo `2^32`, `long int` is the 64-bit signed range
(`wrap_long`).  The byte buffer handed to `set_difficulty` is a list of
naturals; every store the routine issues is recorded with its index, so that
stores outside the buffer are visible in the result.
-/

namespace CudaBitcoinMiner

/-! ## Elapsed time -/

/-- The two fields of `struct timespec` that `utils.c` reads and writes. -/
structure Timespec where
  tv_sec : Int
  tv_nsec : Int
deriving DecidableEq, Repr

/-- The value `x` is representable in a 64-bit `long int`. -/
def fits_long (x : Int) : Prop := -(2 ^ 63) ≤ x ∧ x < 2 ^ 63

instance (x : Int) : Decidable (fits_long x) := by
  unfold fits_long; infer_instance

/-- Reduction of an exact result into the 64-bit two's complement range. -/
def wrap_long (x : Int) : Int := (x + 2 ^ 63) % 2 ^ 64 - 2 ^ 63

/-- `struct timespec diff(struct timespec start, struct timespec end)`. -/
def diff (start end_ : Timespec) : Timespec :=
  if wrap_long (end_.tv_nsec - start.tv_nsec) < 0 then
    { tv_sec := wrap_long (wrap_long (end_.tv_sec - start.tv_sec) - 1),
      tv_nsec := wrap_long (wrap_long (1000000000 + end_.tv_nsec) - start.tv_nsec) }
  else
    { tv_sec := wrap_long (end_.tv_sec - start.tv_sec),
      tv_nsec := wrap_long (end_.tv_nsec - start.tv_nsec) }

/-- `long int get_execution_time()`.  The globals `time1` and `time2` are passed
explicitly; the constant `GIG` comes from `utils.h` and is a parameter. -/
def get_execution_time (GIG : Int) (time1 time2 : Timespec) : Int :=
  let delta := diff time1 time2
  wrap_long (wrap_long (GIG * delta.tv_sec) + delta.tv_nsec)

/-- A timestamp is normalized when its nanosecond field is in `[0, 10^9)`. -/
def normalized (t : Timespec) : Prop := 0 ≤ t.tv_nsec ∧ t.tv_nsec < 1000000000

instance (t : Timespec) : Decidable (normalized t) := by
  unfold normalized; infer_instance

/-- No `long int` operation of `get_execution_time` overflows: the exact value
of every subexpression evaluated on the branch taken by `diff` is
representable. -/
def no_overflow (GIG : Int) (start end_ : Timespec) : Prop :=
  fits_long (end_.tv_nsec - start.tv_nsec) ∧
  fits_long (end_.tv_sec - start.tv_sec) ∧
  if end_.tv_nsec - start.tv_nsec < 0 then
    fits_long (end_.tv_sec - start.tv_sec - 1) ∧
    fits_long (1000000000 + end_.tv_nsec) ∧
    fits_long (1000000000 + end_.tv_nsec - start.tv_nsec) ∧
    fits_long (GIG * (end_.tv_sec - start.tv_sec - 1)) ∧
    fits_long (GIG * (end_.tv_sec - start.tv_sec - 1)
      + (1000000000 + end_.tv_nsec - start.tv_nsec))
  else
    fits_long (GIG * (end_.tv_sec - start.tv_sec)) ∧
    fits_long (GIG * (end_.tv_sec - start.tv_sec) + (end_.tv_nsec - start.tv_nsec))

instance (GIG : Int) (s e : Timespec) : Decidable (no_overflow GIG s e) := by
  unfold no_overflow; infer_instance

/-! ## Nonce result -/

/-- Modelled from the spec: the record type `Nonce_result` is declared in
`utils.h`, which is not among the sources.  It carries the two fields that
`initialize_nonce_result` assigns: a found-flag and a nonce value. -/
structure Nonce_result where
  nonce_found : Bool
  nonce : Nat
deriving DecidableEq, Repr

/-- `void initialize_nonce_result(Nonce_result *nr)`. -/
def initialize_nonce_result (nr : Nonce_result) : Nonce_result :=
  { nr with nonce_found := false, nonce := 0 }

/-! ## Compact difficulty expansion -/

/-- The memory seen by `set_difficulty`: the bytes of the object `difficulty`
points to, and the index of every store issued through that pointer, in
program order.  A store whose index is outside the object is recorded but does
not change `difficulty`. -/
structure Machine where
  difficulty : List Nat
  accesses : List Int
deriving DecidableEq, Repr

/-- The assignment `difficulty[i] = v`, with `v` converted to `unsigned char`. -/
def store (m : Machine) (i : Int) (v : Nat) : Machine :=
  { difficulty :=
      if 0 ≤ i ∧ i < m.difficulty.length then m.difficulty.set i.toNat (v % 256)
      else m.difficulty,
    accesses := m.accesses ++ [i] }

/-- Conversion of an `unsigned int` value to `int` (two's complement). -/
def to_int (u : Nat) : Int :=
  if u % 2 ^ 32 < 2 ^ 31 then ((u % 2 ^ 32 : Nat) : Int)
  else ((u % 2 ^ 32 : Nat) : Int) - 2 ^ 32

/-- The subexpression `(nBits >> 24) & 0xFF`. -/
def exponent (nBits : Nat) : Nat := (nBits >>> 24) &&& 0xFF

/-- The initialiser of `msb`: `32 - ((nBits >> 24) & 0xFF)`, evaluated in
`unsigned int` and converted to `int`. -/
def msb_offset (nBits : Nat) : Int :=
  to_int ((2 ^ 32 + 32 - exponent nBits) % 2 ^ 32)

/-- The loop `for (i = 0; i < 32; i++) difficulty[i] = 0;`. -/
def zero_fill (m : Machine) : Machine :=
  (List.range 32).foldl (fun m (i : Nat) => store m (i : Int) 0) m

/-- `void set_difficulty(unsigned char *difficulty, unsigned int nBits)`. -/
def set_difficulty (difficulty : List Nat) (nBits : Nat) : Machine :=
  let m := zero_fill { difficulty := difficulty, accesses := [] }
  let msb := msb_offset nBits
  let m := store m msb ((nBits >>> 16) &&& 0xFF)
  let msb := msb + 1
  let m := store m msb ((nBits >>> 8) &&& 0xFF)
  let msb := msb + 1
  store m msb (nBits &&& 0xFF)

/-- The store at index `i` falls inside the 32-byte buffer. -/
def in_bounds (i : Int) : Prop := 0 ≤ i ∧ i < 32

instance (i : Int) : Decidable (in_bounds i) := by
  unfold in_bounds; infer_instance

/-- The buffer read as a 256-bit unsigned integer, byte 0 most significant. -/
def target_value (difficulty : List Nat) : Nat :=
  ((List.range 32).map (fun i => difficulty.getD i 0 * 256 ^ (31 - i))).sum

/-- The number of non-zero bytes of a buffer. -/
def nonzero_count (bytes : List Nat) : Nat := bytes.countP (fun b => b != 0)

/-- A byte string read as a big-endian number (first byte most significant). -/
def be_value : List Nat → Nat
  | [] => 0
  | x :: xs => x * 256 ^ xs.length + be_value xs

/-- The buffer holding bytes `a`, `b`, `c` at offsets `k`, `k + 1`, `k + 2` and
zero elsewhere. -/
def mantissa_at (k a b c : Nat) : List Nat :=
  (((List.replicate 32 0).set k a).set (k + 1) b).set (k + 2) c

/-! ## Auxiliary facts -/

theorem store_in_range (m : Machine) (k v : Nat) (hk : k < m.difficulty.length) :
    store m (k : Int) v =
      { difficulty := m.difficulty.set k (v % 256), accesses := m.accesses ++ [(k : Int)] } := by
  unfold store
  have h : (0 : Int) ≤ (k : Int) ∧ (k : Int) < (m.difficulty.length : Int) :=
    ⟨Int.ofNat_nonneg k, by exact_mod_cast hk⟩
  simp [h]

theorem zero_fill_upto (k : Nat) : ∀ (m : Machine), k ≤ m.difficulty.length →
    (List.range k).foldl (fun m (i : Nat) => store m (i : Int) 0) m =
      { difficulty := List.replicate k 0 ++ m.difficulty.drop k,
        accesses := m.accesses ++ (List.range k).map (fun (i : Nat) => (i : Int)) } := by
  induction k with
  | zero => intro m _; simp
  | succ k ih =>
    intro m hk
    rw [List.range_succ, List.foldl_append, ih m (by omega)]
    simp only [List.foldl_cons, List.foldl_nil]
    rw [store_in_range _ _ _ (by simp; omega)]
    simp only [List.map_append, List.map_cons, List.map_nil, List.append_assoc, Machine.mk.injEq,
      and_true]
    apply List.ext_getElem?
    intro j
    simp only [List.getElem?_set, List.getElem?_append, List.getElem?_replicate,
      List.length_replicate, List.length_append, List.length_drop, List.getElem?_drop]
    by_cases h1 : k = j
    · subst h1
      simp
      omega
    · by_cases h2 : j < k
      · have h3 : j < k + 1 := by omega
        simp [h1, h2, h3]
      · have h3 : ¬ j < k + 1 := by omega
        simp [h1, h2, h3]
        congr 1
        omega

theorem zero_fill_eq (m : Machine) (hlen : m.difficulty.length = 32) :
    zero_fill m =
      { difficulty := List.replicate 32 0,
        accesses := m.accesses ++ (List.range 32).map (fun (i : Nat) => (i : Int)) } := by
  unfold zero_fill
  rw [zero_fill_upto 32 m (by omega)]
  have : m.difficulty.drop 32 = [] := by
    apply List.drop_eq_nil_of_le; omega
  simp [this]

theorem and_255 (x : Nat) : x &&& 0xFF = x % 256 :=
  Nat.and_pow_two_sub_one_eq_mod x 8

theorem and_mantissa (x : Nat) : x &&& 0xFFFFFF = x % 16777216 :=
  Nat.and_pow_two_sub_one_eq_mod x 24

theorem exponent_eq (nBits : Nat) : exponent nBits = nBits / 16777216 % 256 := by
  unfold exponent
  rw [and_255, Nat.shiftRight_eq_div_pow]

theorem exponent_lt (nBits : Nat) : exponent nBits < 256 := by
  rw [exponent_eq]
  omega

theorem msb_offset_eq (nBits : Nat) : msb_offset nBits = 32 - (exponent nBits : Int) := by
  have h := exponent_lt nBits
  unfold msb_offset to_int
  generalize exponent nBits = e at h
  rw [Nat.mod_mod]
  by_cases he : e ≤ 32
  · have h1 : (2 ^ 32 + 32 - e) % 2 ^ 32 = 32 - e := by omega
    rw [h1, if_pos (by omega)]
    omega
  · have h1 : (2 ^ 32 + 32 - e) % 2 ^ 32 = 2 ^ 32 + 32 - e := by omega
    rw [h1, if_neg (by omega)]
    omega

theorem set_difficulty_eq (difficulty : List Nat) (nBits : Nat)
    (hlen : difficulty.length = 32) (he : 3 ≤ exponent nBits ∧ exponent nBits ≤ 32) :
    set_difficulty difficulty nBits =
      { difficulty := mantissa_at (32 - exponent nBits) ((nBits >>> 16) &&& 0xFF)
          ((nBits >>> 8) &&& 0xFF) (nBits &&& 0xFF),
        accesses := (List.range 32).map (fun (i : Nat) => (i : Int)) ++
          [32 - (exponent nBits : Int), 32 - (exponent nBits : Int) + 1,
            32 - (exponent nBits : Int) + 1 + 1] } := by
  unfold set_difficulty mantissa_at
  rw [zero_fill_eq _ hlen, msb_offset_eq]
  obtain ⟨k, hk⟩ : ∃ k : Nat, k = 32 - exponent nBits := ⟨_, rfl⟩
  have hk1 : (32 : Int) - (exponent nBits : Int) = (k : Int) := by omega
  have hk2 : (k : Int) + 1 = ((k + 1 : Nat) : Int) := by push_cast; rfl
  have hk3 : ((k + 1 : Nat) : Int) + 1 = ((k + 2 : Nat) : Int) := by push_cast; ring
  rw [hk1, ← hk]
  simp only [and_255]
  rw [store_in_range _ _ _ (by simp; omega), hk2,
    store_in_range _ _ _ (by simp; omega), hk3,
    store_in_range _ _ _ (by simp; omega)]
  simp [Nat.mod_mod]

theorem mantissa_at_length (k a b c : Nat) : (mantissa_at k a b c).length = 32 := by
  simp [mantissa_at]

theorem mantissa_at_getElem? (k a b c i : Nat) (hi : i < 32) :
    (mantissa_at k a b c)[i]? =
      some (if i = k then a else if i = k + 1 then b else if i = k + 2 then c else 0) := by
  unfold mantissa_at
  simp only [List.getElem?_set, List.length_set, List.length_replicate,
    List.getElem?_replicate]
  by_cases h2 : k + 2 = i
  · have h0 : ¬ i = k := by omega
    have h1 : ¬ i = k + 1 := by omega
    simp [h2, h0, h1, hi]
  · by_cases h1 : k + 1 = i
    · have h0 : ¬ i = k := by omega
      simp [h2, h1, h0, hi]
    · by_cases h0 : k = i
      · simp [h2, h1, h0, hi]
      · have g0 : ¬ i = k := by omega
        have g1 : ¬ i = k + 1 := by omega
        have g2 : ¬ i = k + 2 := by omega
        simp [h2, h1, h0, g0, g1, g2, hi]

/-- C1: for every `nBits` whose exponent `e` satisfies `3 ≤ e ≤ 32` and
every initial content of the 32-byte buffer, after `set_difficulty` the buffer
still has 32 bytes, `difficulty[32-e]`, `difficulty[32-e+1]`, `difficulty[32-e+2]`
hold `(nBits >> 16) & 0xFF`, `(nBits >> 8) & 0xFF`, `nBits & 0xFF`, and every
other byte of indices `0..31` is zero. -/
theorem set_difficulty_bytes (difficulty : List Nat) (nBits : Nat)
    (hlen : difficulty.length = 32)
    (he : 3 ≤ exponent nBits ∧ exponent nBits ≤ 32) :
    (set_difficulty difficulty nBits).difficulty.length = 32 ∧
    (set_difficulty difficulty nBits).difficulty[32 - exponent nBits]? =
      some ((nBits >>> 16) &&& 0xFF) ∧
    (set_difficulty difficulty nBits).difficulty[32 - exponent nBits + 1]? =
      some ((nBits >>> 8) &&& 0xFF) ∧
    (set_difficulty difficulty nBits).difficulty[32 - exponent nBits + 2]? =
      some (nBits &&& 0xFF) ∧
    ∀ i, i < 32 → i ≠ 32 - exponent nBits → i ≠ 32 - exponent nBits + 1 →
      i ≠ 32 - exponent nBits + 2 →
      (set_difficulty difficulty nBits).difficulty[i]? = some 0 := by
  rw [set_difficulty_eq difficulty nBits hlen he]
  refine ⟨mantissa_at_length _ _ _ _, ?_, ?_, ?_, ?_⟩
  · rw [mantissa_at_getElem? _ _ _ _ _ (by omega)]
    simp
  · rw [mantissa_at_getElem? _ _ _ _ _ (by omega)]
    simp
  · rw [mantissa_at_getElem? _ _ _ _ _ (by omega)]
    simp
  · intro i hi h0 h1 h2
    rw [mantissa_at_getElem? _ _ _ _ _ hi]
    simp [h0, h1, h2]

theorem set_difficulty_bytes_witness :
    (List.replicate 32 0xAA).length = 32 ∧
    (3 ≤ exponent 0x1b0404cb ∧ exponent 0x1b0404cb ≤ 32) ∧
    (set_difficulty (List.replicate 32 0xAA) 0x1b0404cb).difficulty[32 - exponent 0x1b0404cb]? =
      some ((0x1b0404cb >>> 16) &&& 0xFF) :=
  ⟨by decide, by decide,
    (set_difficulty_bytes (List.replicate 32 0xAA) 0x1b0404cb (by decide) (by decide)).2.1⟩

theorem sum_single (n k v : Nat) (w : Nat → Nat) :
    ((List.range n).map (fun i => if i = k then v * w i else 0)).sum =
      if k < n then v * w k else 0 := by
  induction n with
  | zero => simp
  | succ n ih =>
    rw [List.range_succ, List.map_append, List.sum_append, ih]
    by_cases h1 : k < n
    · have h2 : ¬ n = k := by omega
      have h3 : k < n + 1 := by omega
      simp [h1, h2, h3]
    · by_cases h2 : n = k
      · subst h2
        simp
      · have h3 : ¬ k < n + 1 := by omega
        simp [h1, h2, h3]

theorem sum_three (f g h : Nat → Nat) (l : List Nat) :
    (l.map (fun i => f i + g i + h i)).sum =
      (l.map f).sum + (l.map g).sum + (l.map h).sum := by
  induction l with
  | nil => simp
  | cons x xs ih =>
    simp only [List.map_cons, List.sum_cons, ih]
    omega

theorem target_value_mantissa_at (k a b c : Nat) (hk : k + 2 < 32) :
    target_value (mantissa_at k a b c) =
      a * 256 ^ (31 - k) + b * 256 ^ (31 - (k + 1)) + c * 256 ^ (31 - (k + 2)) := by
  unfold target_value
  have hpt : ∀ i ∈ List.range 32, (mantissa_at k a b c).getD i 0 * 256 ^ (31 - i) =
      (if i = k then a * 256 ^ (31 - i) else 0) +
      (if i = k + 1 then b * 256 ^ (31 - i) else 0) +
      (if i = k + 2 then c * 256 ^ (31 - i) else 0) := by
    intro i hi
    rw [List.mem_range] at hi
    rw [List.getD_eq_getElem?_getD, mantissa_at_getElem? _ _ _ _ _ hi]
    by_cases h0 : i = k
    · have h1 : ¬ k = k + 1 := by omega
      have h2 : ¬ k = k + 2 := by omega
      subst h0
      simp
    · by_cases h1 : i = k + 1
      · subst h1
        simp
      · by_cases h2 : i = k + 2
        · subst h2
          simp
        · simp [h0, h1, h2]
  rw [List.map_congr_left hpt, sum_three, sum_single, sum_single, sum_single]
  rw [if_pos (by omega), if_pos (by omega), if_pos (by omega)]

theorem mantissa_split (nBits : Nat) :
    nBits &&& 0xFFFFFF =
      ((nBits >>> 16) &&& 0xFF) * 65536 + ((nBits >>> 8) &&& 0xFF) * 256 + (nBits &&& 0xFF) := by
  rw [and_mantissa, and_255, and_255, and_255, Nat.shiftRight_eq_div_pow,
    Nat.shiftRight_eq_div_pow]
  omega

/-- C2: for every `nBits` with exponent `e` in `3..32` and 24-bit mantissa
`m = nBits & 0xFFFFFF`, the buffer produced by `set_difficulty`, read as a
256-bit unsigned integer with byte 0 most significant, equals
`m * 256^(e-3)`. -/
theorem set_difficulty_value (difficulty : List Nat) (nBits : Nat)
    (hlen : difficulty.length = 32) (he : 3 ≤ exponent nBits ∧ exponent nBits ≤ 32) :
    target_value (set_difficulty difficulty nBits).difficulty =
      (nBits &&& 0xFFFFFF) * 256 ^ (exponent nBits - 3) := by
  rw [set_difficulty_eq difficulty nBits hlen he, target_value_mantissa_at _ _ _ _ (by omega),
    mantissa_split]
  obtain ⟨h1, h2⟩ := he
  generalize exponent nBits = e at h1 h2
  obtain ⟨d, rfl⟩ : ∃ d, e = d + 3 := ⟨e - 3, by omega⟩
  have e1 : 31 - (32 - (d + 3)) = d + 2 := by omega
  have e2 : 31 - (32 - (d + 3) + 1) = d + 1 := by omega
  have e3 : 31 - (32 - (d + 3) + 2) = d := by omega
  rw [e1, e2, e3, Nat.add_sub_cancel]
  ring

theorem set_difficulty_value_witness :
    (List.replicate 32 0x5A).length = 32 ∧
    (3 ≤ exponent 0x1d00ffff ∧ exponent 0x1d00ffff ≤ 32) ∧
    target_value (set_difficulty (List.replicate 32 0x5A) 0x1d00ffff).difficulty =
      (0x1d00ffff &&& 0xFFFFFF) * 256 ^ (exponent 0x1d00ffff - 3) :=
  ⟨by decide, by decide,
    set_difficulty_value (List.replicate 32 0x5A) 0x1d00ffff (by decide) (by decide)⟩

theorem store_accesses (m : Machine) (i : Int) (v : Nat) :
    (store m i v).accesses = m.accesses ++ [i] := rfl

theorem set_difficulty_accesses (difficulty : List Nat) (nBits : Nat)
    (hlen : difficulty.length = 32) :
    (set_difficulty difficulty nBits).accesses =
      (List.range 32).map (fun (i : Nat) => (i : Int)) ++
        [msb_offset nBits, msb_offset nBits + 1, msb_offset nBits + 1 + 1] := by
  unfold set_difficulty
  simp only [store_accesses]
  rw [zero_fill_eq _ hlen]
  simp

theorem zero_fill_in_bounds (i : Int)
    (hi : i ∈ (List.range 32).map (fun (i : Nat) => (i : Int))) : in_bounds i := by
  rw [List.mem_map] at hi
  obtain ⟨k, hk, rfl⟩ := hi
  rw [List.mem_range] at hk
  unfold in_bounds
  omega

/-- C3: for every `nBits`, the three mantissa stores of `set_difficulty`
go to `msb`, `msb + 1`, `msb + 2` with `msb = 32 - exponent`; all three lie in
`0..31` if and only if `3 ≤ exponent ≤ 32`; under that precondition every store
of the call is in bounds (no failure path); for `exponent < 3` the third index
is `≥ 32`, and for `exponent > 32` the first index is negative. -/
theorem mantissa_writes_in_bounds (difficulty : List Nat) (nBits : Nat)
    (hlen : difficulty.length = 32) :
    (set_difficulty difficulty nBits).accesses.drop 32 =
      [msb_offset nBits, msb_offset nBits + 1, msb_offset nBits + 1 + 1] ∧
    msb_offset nBits = 32 - (exponent nBits : Int) ∧
    ((∀ i ∈ (set_difficulty difficulty nBits).accesses.drop 32, in_bounds i) ↔
      (3 ≤ exponent nBits ∧ exponent nBits ≤ 32)) ∧
    ((3 ≤ exponent nBits ∧ exponent nBits ≤ 32) →
      ∀ i ∈ (set_difficulty difficulty nBits).accesses, in_bounds i) ∧
    (exponent nBits < 3 → 32 ≤ msb_offset nBits + 1 + 1) ∧
    (32 < exponent nBits → msb_offset nBits < 0) := by
  have hdrop : (set_difficulty difficulty nBits).accesses.drop 32 =
      [msb_offset nBits, msb_offset nBits + 1, msb_offset nBits + 1 + 1] := by
    rw [set_difficulty_accesses difficulty nBits hlen]
    rw [List.drop_append_of_le_length (by simp)]
    simp
  have hmsb := msb_offset_eq nBits
  refine ⟨hdrop, hmsb, ?_, ?_, ?_, ?_⟩
  · rw [hdrop]
    simp only [List.mem_cons, List.mem_singleton, List.mem_nil_iff, or_false, forall_eq_or_imp,
      forall_eq, in_bounds]
    omega
  · intro he i hi
    rw [set_difficulty_accesses difficulty nBits hlen, List.mem_append] at hi
    rcases hi with hi | hi
    · exact zero_fill_in_bounds i hi
    · simp only [List.mem_cons, List.mem_singleton, List.mem_nil_iff, or_false] at hi
      unfold in_bounds
      omega
  · omega
  · omega

theorem mantissa_writes_in_bounds_witness :
    (List.replicate 32 0x11).length = 32 ∧
    (set_difficulty (List.replicate 32 0x11) 0x1d00ffff).accesses.drop 32 =
      [msb_offset 0x1d00ffff, msb_offset 0x1d00ffff + 1, msb_offset 0x1d00ffff + 1 + 1] :=
  ⟨by decide,
    (mantissa_writes_in_bounds (List.replicate 32 0x11) 0x1d00ffff (by decide)).1⟩

/-- C4: at `nBits = 0x00000000` (exponent 0) the three mantissa stores of
`set_difficulty` go to indices 32, 33, 34, and at `nBits = 0x21000000`
(exponent 33) the first one goes to index -1: the routine does not reject an
exponent outside `3..32`, it stores outside the 32-byte buffer. -/
theorem set_difficulty_stores_out_of_bounds :
    exponent 0x00000000 = 0 ∧
    (set_difficulty (List.replicate 32 0) 0x00000000).accesses.drop 32 = [32, 33, 34] ∧
    ¬ in_bounds 32 ∧
    exponent 0x21000000 = 33 ∧
    (set_difficulty (List.replicate 32 0) 0x21000000).accesses.drop 32 = [-1, 0, 1] ∧
    ¬ in_bounds (-1) := by
  decide

set_option maxRecDepth 8192 in
/-- C5: on a buffer of 32 bytes `0xFF` and `nBits = 0x01aabbcc` (exponent 1)
`set_difficulty` is not all-or-nothing.  The three mantissa stores go to
indices 31, 32, 33, so two of them fall outside the 32-byte buffer; and the
buffer is not left as it was: bytes `0..30` have been zeroed and byte 31 holds
the first mantissa byte `0xaa`, a partially written state. -/
theorem set_difficulty_not_all_or_nothing :
    exponent 0x01aabbcc = 1 ∧
    (set_difficulty (List.replicate 32 0xFF) 0x01aabbcc).accesses.drop 32 = [31, 32, 33] ∧
    ¬ in_bounds 32 ∧ ¬ in_bounds 33 ∧
    (set_difficulty (List.replicate 32 0xFF) 0x01aabbcc).difficulty =
      List.replicate 31 0 ++ [0xaa] ∧
    ¬ ((∀ i ∈ (set_difficulty (List.replicate 32 0xFF) 0x01aabbcc).accesses.drop 32,
          in_bounds i) ∨
        (set_difficulty (List.replicate 32 0xFF) 0x01aabbcc).difficulty =
          List.replicate 32 0xFF) := by
  refine ⟨by decide, by decide, by decide, by decide, by decide, ?_⟩
  intro h
  rcases h with h | h
  · exact absurd (h 32 (by decide)) (by decide)
  · exact absurd (congrArg (fun l => l.getD 0 0) h) (by decide)

/-- C6: for every `nBits` with exponent in `3..32` and every two 32-byte buffers
`b1`, `b2` with arbitrary initial contents, `set_difficulty` leaves both with
identical contents: the output depends on `nBits` alone. -/
theorem set_difficulty_independent_of_buffer (b1 b2 : List Nat) (nBits : Nat)
    (h1 : b1.length = 32) (h2 : b2.length = 32)
    (he : 3 ≤ exponent nBits ∧ exponent nBits ≤ 32) :
    (set_difficulty b1 nBits).difficulty = (set_difficulty b2 nBits).difficulty := by
  rw [set_difficulty_eq b1 nBits h1 he, set_difficulty_eq b2 nBits h2 he]

theorem set_difficulty_independent_of_buffer_witness :
    (List.replicate 32 0x00).length = 32 ∧ (List.replicate 32 0xFF).length = 32 ∧
    (3 ≤ exponent 0x1b0404cb ∧ exponent 0x1b0404cb ≤ 32) ∧
    (set_difficulty (List.replicate 32 0x00) 0x1b0404cb).difficulty =
      (set_difficulty (List.replicate 32 0xFF) 0x1b0404cb).difficulty :=
  ⟨by decide, by decide, by decide,
    set_difficulty_independent_of_buffer (List.replicate 32 0x00) (List.replicate 32 0xFF)
      0x1b0404cb (by decide) (by decide) (by decide)⟩

theorem mantissa_at_eq_append (k a b c : Nat) (hk : k + 2 < 32) :
    mantissa_at k a b c =
      List.replicate k 0 ++ ([a, b, c] ++ List.replicate (29 - k) 0) := by
  apply List.ext_getElem?
  intro i
  by_cases hi : i < 32
  · rw [mantissa_at_getElem? _ _ _ _ _ hi]
    have hcases : i < k ∨ i = k ∨ i = k + 1 ∨ i = k + 2 ∨ ∃ j, i = k + 3 + j ∧ j < 29 - k := by
      by_cases h : i < k + 3
      · omega
      · exact Or.inr (Or.inr (Or.inr (Or.inr ⟨i - (k + 3), by omega, by omega⟩)))
    rcases hcases with h | rfl | rfl | rfl | ⟨j, rfl, hj⟩
    · have h0 : ¬ i = k := by omega
      have h1 : ¬ i = k + 1 := by omega
      have h2 : ¬ i = k + 2 := by omega
      rw [List.getElem?_append_left (by simpa using h)]
      simp [h0, h1, h2, h]
    · rw [List.getElem?_append_right (by simp)]
      simp
    · rw [List.getElem?_append_right (by simp)]
      simp
    · rw [List.getElem?_append_right (by simp)]
      simp
    · rw [List.getElem?_append_right (by simp; omega)]
      have e1 : k + 3 + j - (List.replicate k 0).length = j + 3 := by simp; omega
      rw [e1]
      have h0 : ¬ k + 3 + j = k := by omega
      have h1 : ¬ k + 3 + j = k + 1 := by omega
      have h2 : ¬ k + 3 + j = k + 2 := by omega
      simp [h0, h1, h2, hj]
  · rw [List.getElem?_eq_none (by rw [mantissa_at_length]; omega)]
    rw [List.getElem?_eq_none (by simp; omega)]

theorem nonzero_count_mantissa_at (k a b c : Nat) (hk : k + 2 < 32) :
    nonzero_count (mantissa_at k a b c) = nonzero_count [a, b, c] := by
  rw [mantissa_at_eq_append k a b c hk]
  unfold nonzero_count
  rw [List.countP_append, List.countP_append, List.countP_replicate, List.countP_replicate]
  simp

/-- C7: for every `nBits` with exponent in `3..32`, the number of non-zero
bytes of the buffer after `set_difficulty` equals the number of non-zero bytes
among the three mantissa bytes; it is at most 3, and exactly 3 when the three
mantissa bytes are all non-zero. -/
theorem set_difficulty_nonzero_count (difficulty : List Nat) (nBits : Nat)
    (hlen : difficulty.length = 32) (he : 3 ≤ exponent nBits ∧ exponent nBits ≤ 32) :
    nonzero_count (set_difficulty difficulty nBits).difficulty =
      nonzero_count [(nBits >>> 16) &&& 0xFF, (nBits >>> 8) &&& 0xFF, nBits &&& 0xFF] ∧
    nonzero_count (set_difficulty difficulty nBits).difficulty ≤ 3 ∧
    (((nBits >>> 16) &&& 0xFF ≠ 0 ∧ (nBits >>> 8) &&& 0xFF ≠ 0 ∧ nBits &&& 0xFF ≠ 0) →
      nonzero_count (set_difficulty difficulty nBits).difficulty = 3) := by
  rw [set_difficulty_eq difficulty nBits hlen he, nonzero_count_mantissa_at _ _ _ _ (by omega)]
  refine ⟨rfl, ?_, ?_⟩
  · unfold nonzero_count
    exact (List.countP_le_length _).trans (by simp)
  · rintro ⟨ha, hb, hc⟩
    simp [nonzero_count, List.countP_cons, ha, hb, hc]

theorem set_difficulty_nonzero_count_witness :
    (List.replicate 32 0x77).length = 32 ∧
    (3 ≤ exponent 0x1b0404cb ∧ exponent 0x1b0404cb ≤ 32) ∧
    nonzero_count (set_difficulty (List.replicate 32 0x77) 0x1b0404cb).difficulty ≤ 3 :=
  ⟨by decide, by decide,
    (set_difficulty_nonzero_count (List.replicate 32 0x77) 0x1b0404cb (by decide)
      (by decide)).2.1⟩

/-- C8: whatever the 32-byte buffer held before, `set_difficulty` yields
`00 00 00 00 ff ff` followed by 26 zero bytes for `nBits = 0x1d00ffff`; bytes
5, 6, 7 equal to `04 04 cb` and zero elsewhere for `nBits = 0x1b0404cb`; and 32
zero bytes for `nBits = 0x20000000`. -/
theorem set_difficulty_vectors (difficulty : List Nat) (hlen : difficulty.length = 32) :
    (set_difficulty difficulty 0x1d00ffff).difficulty =
      [0, 0, 0, 0, 0xff, 0xff] ++ List.replicate 26 0 ∧
    (set_difficulty difficulty 0x1b0404cb).difficulty =
      [0, 0, 0, 0, 0, 0x04, 0x04, 0xcb] ++ List.replicate 24 0 ∧
    (set_difficulty difficulty 0x20000000).difficulty = List.replicate 32 0 := by
  refine ⟨?_, ?_, ?_⟩
  · rw [set_difficulty_eq difficulty 0x1d00ffff hlen (by decide)]
    decide
  · rw [set_difficulty_eq difficulty 0x1b0404cb hlen (by decide)]
    decide
  · rw [set_difficulty_eq difficulty 0x20000000 hlen (by decide)]
    decide

theorem set_difficulty_vectors_witness :
    (List.replicate 32 0xEE).length = 32 ∧
    (set_difficulty (List.replicate 32 0xEE) 0x20000000).difficulty = List.replicate 32 0 :=
  ⟨by decide, (set_difficulty_vectors (List.replicate 32 0xEE) (by decide)).2.2⟩

theorem wrap_long_of_fits (x : Int) (h : fits_long x) : wrap_long x = x := by
  unfold fits_long at h
  unfold wrap_long
  omega

/-- C9: for timestamps `time1` (start) and `time2` (end), with
`GIG = 1000000000` and no overflow of `long int`, `get_execution_time` returns
exactly `(time2.tv_sec * 10^9 + time2.tv_nsec) - (time1.tv_sec * 10^9 +
time1.tv_nsec)`, on both branches of `diff`.  This covers every pair of
normalized timestamps; normalization itself is not needed for the identity. -/
theorem get_execution_time_exact (time1 time2 : Timespec)
    (hno : no_overflow 1000000000 time1 time2) :
    get_execution_time 1000000000 time1 time2 =
      (time2.tv_sec * 10 ^ 9 + time2.tv_nsec) - (time1.tv_sec * 10 ^ 9 + time1.tv_nsec) := by
  obtain ⟨f1, f2, f3⟩ := hno
  unfold get_execution_time diff
  rw [wrap_long_of_fits _ f1]
  by_cases hb : time2.tv_nsec - time1.tv_nsec < 0
  · rw [if_pos hb] at f3
    obtain ⟨g1, g2, g3, g4, g5⟩ := f3
    rw [if_pos hb]
    simp only []
    rw [wrap_long_of_fits _ f2, wrap_long_of_fits _ g1, wrap_long_of_fits _ g2,
      wrap_long_of_fits _ g3, wrap_long_of_fits _ g4, wrap_long_of_fits _ g5]
    ring
  · rw [if_neg hb] at f3
    obtain ⟨g1, g2⟩ := f3
    rw [if_neg hb]
    simp only []
    rw [wrap_long_of_fits _ f2, wrap_long_of_fits _ g1, wrap_long_of_fits _ g2]
    ring

theorem get_execution_time_exact_witness :
    normalized ⟨7, 999999999⟩ ∧ normalized ⟨5, 1⟩ ∧
    no_overflow 1000000000 ⟨7, 999999999⟩ ⟨5, 1⟩ ∧
    get_execution_time 1000000000 ⟨7, 999999999⟩ ⟨5, 1⟩ =
      ((5 : Int) * 10 ^ 9 + 1) - (7 * 10 ^ 9 + 999999999) :=
  ⟨by decide, by decide, by decide,
    get_execution_time_exact ⟨7, 999999999⟩ ⟨5, 1⟩ (by decide)⟩

/-- C10: for every `Nonce_result`, after `initialize_nonce_result` the flag
`nonce_found` is false and `nonce` is 0, and applying the routine twice gives
the same record as applying it once. -/
theorem initialize_nonce_result_spec (nr : Nonce_result) :
    (initialize_nonce_result nr).nonce_found = false ∧
    (initialize_nonce_result nr).nonce = 0 ∧
    initialize_nonce_result (initialize_nonce_result nr) = initialize_nonce_result nr :=
  ⟨rfl, rfl, rfl⟩

/-- C11: for every `nBits`, the value of `msb` computed as
`32 - ((nBits >> 24) & 0xFF)` in unsigned 32-bit arithmetic and converted to
`int` equals the mathematical integer `32 - exponent`; it lies in `-223..32`,
is negative exactly when `exponent > 32`, and equals 32 when `exponent = 0`. -/
theorem msb_offset_spec (nBits : Nat) :
    msb_offset nBits = 32 - (exponent nBits : Int) ∧
    (-223 ≤ msb_offset nBits ∧ msb_offset nBits ≤ 32) ∧
    (msb_offset nBits < 0 ↔ 32 < exponent nBits) ∧
    (exponent nBits = 0 → msb_offset nBits = 32) := by
  have h := msb_offset_eq nBits
  have hlt := exponent_lt nBits
  refine ⟨h, ⟨by omega, by omega⟩, by omega, ?_⟩
  intro h0
  rw [h, h0]
  rfl

/-- C12, counterexample: for `nBits = 0x1b0404cb` (exponent 27, stores at 5, 6,
7) the lowest written index 5 does not hold the least significant mantissa byte
`0xcb`, and the highest written index 7 does not hold the most significant
mantissa byte `0x04`: the bytes are not laid out in little-endian order. -/
theorem set_difficulty_not_little_endian :
    32 - exponent 0x1b0404cb = 5 ∧
    (set_difficulty (List.replicate 32 0) 0x1b0404cb).difficulty[5]? ≠
      some (0x1b0404cb &&& 0xFF) ∧
    (set_difficulty (List.replicate 32 0) 0x1b0404cb).difficulty[5 + 2]? ≠
      some ((0x1b0404cb >>> 16) &&& 0xFF) := by
  rw [set_difficulty_eq _ 0x1b0404cb (by decide) (by decide)]
  decide

/-- C12, amended: for every `nBits` with exponent in `3..32`, `set_difficulty`
lays the mantissa out most significant byte first: `(nBits >> 16) & 0xFF` is at
the lowest of the three written indices (`32 - exponent`, the index `msb`),
`(nBits >> 8) & 0xFF` at the next one, and `nBits & 0xFF` at the highest
(`32 - exponent + 2`); the stores are issued in that order. -/
theorem set_difficulty_big_endian (difficulty : List Nat) (nBits : Nat)
    (hlen : difficulty.length = 32) (he : 3 ≤ exponent nBits ∧ exponent nBits ≤ 32) :
    (set_difficulty difficulty nBits).accesses.drop 32 =
      [32 - (exponent nBits : Int), 32 - (exponent nBits : Int) + 1,
        32 - (exponent nBits : Int) + 1 + 1] ∧
    (set_difficulty difficulty nBits).difficulty[32 - exponent nBits]? =
      some ((nBits >>> 16) &&& 0xFF) ∧
    (set_difficulty difficulty nBits).difficulty[32 - exponent nBits + 1]? =
      some ((nBits >>> 8) &&& 0xFF) ∧
    (set_difficulty difficulty nBits).difficulty[32 - exponent nBits + 2]? =
      some (nBits &&& 0xFF) := by
  rw [set_difficulty_eq difficulty nBits hlen he]
  refine ⟨?_, ?_, ?_, ?_⟩
  · rw [List.drop_append_of_le_length (by simp)]
    simp
  · rw [mantissa_at_getElem? _ _ _ _ _ (by omega)]
    simp
  · rw [mantissa_at_getElem? _ _ _ _ _ (by omega)]
    simp
  · rw [mantissa_at_getElem? _ _ _ _ _ (by omega)]
    simp

theorem set_difficulty_big_endian_witness :
    (List.replicate 32 0x33).length = 32 ∧
    (3 ≤ exponent 0x1b0404cb ∧ exponent 0x1b0404cb ≤ 32) ∧
    (set_difficulty (List.replicate 32 0x33) 0x1b0404cb).difficulty[32 - exponent 0x1b0404cb]? =
      some ((0x1b0404cb >>> 16) &&& 0xFF) :=
  ⟨by decide, by decide,
    (set_difficulty_big_endian (List.replicate 32 0x33) 0x1b0404cb (by decide)
      (by decide)).2.1⟩

/-- C13, counterexample: `start = {-2^62, 0}` and `end = {2^62, 0}` are
normalized timestamps whose fields fit `long int`, yet the result of `diff` does
not satisfy `tv_sec * 10^9 + tv_nsec = end - start`: the difference of `2^63`
seconds is not representable in the `tv_sec` field, and the result has a
negative `tv_sec` although `end` is later than `start`. -/
theorem diff_not_exact_for_all :
    normalized ⟨-(2 ^ 62), 0⟩ ∧ normalized ⟨2 ^ 62, 0⟩ ∧
    fits_long (-(2 ^ 62)) ∧ fits_long (2 ^ 62) ∧
    (diff ⟨-(2 ^ 62), 0⟩ ⟨2 ^ 62, 0⟩).tv_sec * 10 ^ 9 + (diff ⟨-(2 ^ 62), 0⟩ ⟨2 ^ 62, 0⟩).tv_nsec ≠
      ((2 ^ 62 : Int) * 10 ^ 9 + 0) - (-(2 ^ 62) * 10 ^ 9 + 0) ∧
    (diff ⟨-(2 ^ 62), 0⟩ ⟨2 ^ 62, 0⟩).tv_sec < 0 := by
  decide

theorem wrap_long_fits (x : Int) : fits_long (wrap_long x) := by
  unfold fits_long wrap_long
  omega

theorem diff_tv_sec_fits (start end_ : Timespec) : fits_long (diff start end_).tv_sec := by
  unfold diff
  split <;> exact wrap_long_fits _

theorem second_count_not_representable (r : Timespec) (hr : fits_long r.tv_sec)
    (hn : normalized r) :
    r.tv_sec * 10 ^ 9 + r.tv_nsec ≠ ((2 ^ 62 : Int) * 10 ^ 9 + 0) - (-(2 ^ 62) * 10 ^ 9 + 0) := by
  unfold fits_long at hr
  unfold normalized at hn
  omega

/-- C13, amended: for every pair of normalized timestamps `start` and `end`
whose difference of seconds `end.tv_sec - start.tv_sec` is representable in
`long int`, and that difference minus one as well when
`end.tv_nsec < start.tv_nsec`, the result of `diff` is normalized, its
`tv_sec * 10^9 + tv_nsec` equals the exact nanosecond difference `end - start`,
and its `tv_sec` is negative exactly when `end` is strictly earlier than
`start`. -/
theorem diff_normalized_exact (start end_ : Timespec)
    (hs : normalized start) (he : normalized end_)
    (hsec : fits_long (end_.tv_sec - start.tv_sec))
    (hborrow : end_.tv_nsec < start.tv_nsec → fits_long (end_.tv_sec - start.tv_sec - 1)) :
    normalized (diff start end_) ∧
    (diff start end_).tv_sec * 10 ^ 9 + (diff start end_).tv_nsec =
      (end_.tv_sec * 10 ^ 9 + end_.tv_nsec) - (start.tv_sec * 10 ^ 9 + start.tv_nsec) ∧
    ((diff start end_).tv_sec < 0 ↔
      end_.tv_sec * 10 ^ 9 + end_.tv_nsec < start.tv_sec * 10 ^ 9 + start.tv_nsec) := by
  obtain ⟨hs0, hs1⟩ := hs
  obtain ⟨he0, he1⟩ := he
  have f1 : fits_long (end_.tv_nsec - start.tv_nsec) := by
    unfold fits_long; omega
  have f2 : fits_long (1000000000 + end_.tv_nsec) := by
    unfold fits_long; omega
  have f3 : fits_long (1000000000 + end_.tv_nsec - start.tv_nsec) := by
    unfold fits_long; omega
  unfold diff normalized
  rw [wrap_long_of_fits _ f1, wrap_long_of_fits _ hsec, wrap_long_of_fits _ f2,
    wrap_long_of_fits _ f3]
  by_cases hb : end_.tv_nsec - start.tv_nsec < 0
  · rw [if_pos hb, wrap_long_of_fits _ (hborrow (by omega))]
    simp only []
    refine ⟨⟨by omega, by omega⟩, by ring, ?_⟩
    constructor <;> intro h <;> omega
  · rw [if_neg hb]
    simp only []
    refine ⟨⟨by omega, by omega⟩, by ring, ?_⟩
    constructor <;> intro h <;> omega

theorem diff_normalized_exact_witness :
    normalized ⟨7, 999999999⟩ ∧ normalized ⟨5, 1⟩ ∧
    normalized (diff ⟨7, 999999999⟩ ⟨5, 1⟩) ∧
    (diff ⟨7, 999999999⟩ ⟨5, 1⟩).tv_sec * 10 ^ 9 + (diff ⟨7, 999999999⟩ ⟨5, 1⟩).tv_nsec =
      ((5 : Int) * 10 ^ 9 + 1) - (7 * 10 ^ 9 + 999999999) :=
  ⟨by decide, by decide,
    (diff_normalized_exact ⟨7, 999999999⟩ ⟨5, 1⟩ (by decide) (by decide) (by decide)
      (fun _ => by decide)).1,
    (diff_normalized_exact ⟨7, 999999999⟩ ⟨5, 1⟩ (by decide) (by decide) (by decide)
      (fun _ => by decide)).2.1⟩

/-- C15: `set_difficulty` is not injective on valid inputs: `0x03000100` and
`0x04000001` are distinct, both have an exponent in `3..32` and a non-zero
mantissa, and from any 32-byte buffers both yield the buffer whose only
non-zero byte is `difficulty[30] = 0x01`. -/
theorem set_difficulty_not_injective (b1 b2 : List Nat)
    (h1 : b1.length = 32) (h2 : b2.length = 32) :
    (0x03000100 : Nat) ≠ 0x04000001 ∧
    (3 ≤ exponent 0x03000100 ∧ exponent 0x03000100 ≤ 32) ∧
    (3 ≤ exponent 0x04000001 ∧ exponent 0x04000001 ≤ 32) ∧
    (0x03000100 : Nat) &&& 0xFFFFFF ≠ 0 ∧ (0x04000001 : Nat) &&& 0xFFFFFF ≠ 0 ∧
    (set_difficulty b1 0x03000100).difficulty = (set_difficulty b2 0x04000001).difficulty ∧
    (set_difficulty b1 0x03000100).difficulty = List.replicate 30 0 ++ [0x01, 0] := by
  rw [set_difficulty_eq b1 0x03000100 h1 (by decide),
    set_difficulty_eq b2 0x04000001 h2 (by decide)]
  decide

theorem set_difficulty_not_injective_witness :
    (List.replicate 32 0x00).length = 32 ∧ (List.replicate 32 0xFF).length = 32 ∧
    (set_difficulty (List.replicate 32 0x00) 0x03000100).difficulty =
      (set_difficulty (List.replicate 32 0xFF) 0x04000001).difficulty :=
  ⟨by decide, by decide,
    (set_difficulty_not_injective (List.replicate 32 0x00) (List.replicate 32 0xFF)
      (by decide) (by decide)).2.2.2.2.2.1⟩

theorem be_value_lt : ∀ (l : List Nat), (∀ x ∈ l, x < 256) → be_value l < 256 ^ l.length
  | [], _ => by simp [be_value]
  | x :: xs, h => by
    have hx : x < 256 := h x (List.mem_cons_self _ _)
    have ih := be_value_lt xs (fun z hz => h z (List.mem_cons_of_mem _ hz))
    have hmul : (x + 1) * 256 ^ xs.length ≤ 256 * 256 ^ xs.length :=
      Nat.mul_le_mul_right _ (by omega)
    simp only [be_value, List.length_cons, Nat.pow_succ]
    rw [Nat.add_mul] at hmul
    omega

theorem be_lt_of_lex_lt : ∀ (l1 l2 : List Nat), l1.length = l2.length →
    (∀ x ∈ l1, x < 256) → (∀ x ∈ l2, x < 256) → l1 < l2 → be_value l1 < be_value l2
  | [], [], _, _, _, h => by
    have h2 : List.Lex (· < ·) ([] : List Nat) [] := h
    cases h2
  | [], _ :: _, hl, _, _, _ => by simp at hl
  | _ :: _, [], hl, _, _, _ => by simp at hl
  | x :: xs, y :: ys, hl, hx, hy, h => by
    have hlen : xs.length = ys.length := by simpa using hl
    have bx := be_value_lt xs (fun z hz => hx z (List.mem_cons_of_mem _ hz))
    simp only [be_value]
    rw [hlen] at bx ⊢
    have h2 : List.Lex (· < ·) (x :: xs) (y :: ys) := h
    cases h2 with
    | rel hxy =>
      have hmul : (x + 1) * 256 ^ ys.length ≤ y * 256 ^ ys.length :=
        Nat.mul_le_mul_right _ hxy
      rw [Nat.add_mul] at hmul
      omega
    | cons ht =>
      have ih := be_lt_of_lex_lt xs ys hlen (fun z hz => hx z (List.mem_cons_of_mem _ hz))
        (fun z hz => hy z (List.mem_cons_of_mem _ hz)) ht
      omega

theorem lex_lt_of_be_lt : ∀ (l1 l2 : List Nat), l1.length = l2.length →
    (∀ x ∈ l1, x < 256) → (∀ x ∈ l2, x < 256) → be_value l1 < be_value l2 → l1 < l2
  | [], [], _, _, _, h => by simp [be_value] at h
  | [], _ :: _, hl, _, _, _ => by simp at hl
  | _ :: _, [], hl, _, _, _ => by simp at hl
  | x :: xs, y :: ys, hl, hx, hy, h => by
    have hlen : xs.length = ys.length := by simpa using hl
    have bys := be_value_lt ys (fun z hz => hy z (List.mem_cons_of_mem _ hz))
    simp only [be_value] at h
    rw [hlen] at h
    rcases Nat.lt_trichotomy x y with hxy | hxy | hxy
    · exact List.Lex.rel hxy
    · subst hxy
      exact List.Lex.cons
        (lex_lt_of_be_lt xs ys hlen (fun z hz => hx z (List.mem_cons_of_mem _ hz))
          (fun z hz => hy z (List.mem_cons_of_mem _ hz)) (by omega))
    · exfalso
      have hmul : (y + 1) * 256 ^ ys.length ≤ x * 256 ^ ys.length :=
        Nat.mul_le_mul_right _ hxy
      rw [Nat.add_mul] at hmul
      omega

theorem lex_le_of_be_le (l1 l2 : List Nat) (hl : l1.length = l2.length)
    (h1 : ∀ x ∈ l1, x < 256) (h2 : ∀ x ∈ l2, x < 256) (h : be_value l1 ≤ be_value l2) :
    l1 ≤ l2 := by
  apply not_lt.mp
  intro hlt
  have := be_lt_of_lex_lt l2 l1 hl.symm h2 h1 hlt
  omega

theorem be_value_append (l1 l2 : List Nat) :
    be_value (l1 ++ l2) = be_value l1 * 256 ^ l2.length + be_value l2 := by
  induction l1 with
  | nil => simp [be_value]
  | cons x xs ih =>
    show x * 256 ^ (xs ++ l2).length + be_value (xs ++ l2) =
      (x * 256 ^ xs.length + be_value xs) * 256 ^ l2.length + be_value l2
    rw [ih, List.length_append, Nat.pow_add]
    ring

theorem be_value_zeros (n : Nat) : be_value (List.replicate n 0) = 0 := by
  induction n with
  | zero => rfl
  | succ n ih => simp [List.replicate_succ, be_value, ih]

theorem be_value_mantissa_at (k a b c : Nat) (hk : k + 2 < 32) :
    be_value (mantissa_at k a b c) = (a * 65536 + b * 256 + c) * 256 ^ (29 - k) := by
  rw [mantissa_at_eq_append k a b c hk, be_value_append, be_value_append, be_value_zeros,
    be_value_zeros]
  simp only [be_value, List.length_replicate, List.length_cons, List.length_nil]
  ring

theorem mantissa_at_bytes (k a b c : Nat) (hk : k + 2 < 32)
    (ha : a < 256) (hb : b < 256) (hc : c < 256) :
    ∀ x ∈ mantissa_at k a b c, x < 256 := by
  intro x hx
  rw [mantissa_at_eq_append k a b c hk] at hx
  simp only [List.mem_append, List.mem_replicate, List.mem_cons, List.mem_nil_iff,
    or_false] at hx
  omega

theorem and_255_lt (x : Nat) : x &&& 0xFF < 256 := by
  rw [and_255]
  omega

/-- C14: for a fixed exponent `e` in `3..32` and two 24-bit mantissas
`m1 ≤ m2`, the buffer produced by `set_difficulty` for `(e, m1)` is
lexicographically less than or equal to the one for `(e, m2)`; and for a fixed
non-zero mantissa and exponents `3 ≤ e1 < e2 ≤ 32`, the buffer for `e1` is
strictly lexicographically less than the buffer for `e2`. -/
theorem set_difficulty_lex_monotone (b1 b2 : List Nat) (n1 n2 : Nat)
    (h1 : b1.length = 32) (h2 : b2.length = 32)
    (he1 : 3 ≤ exponent n1 ∧ exponent n1 ≤ 32)
    (he2 : 3 ≤ exponent n2 ∧ exponent n2 ≤ 32) :
    (exponent n1 = exponent n2 → n1 &&& 0xFFFFFF ≤ n2 &&& 0xFFFFFF →
      (set_difficulty b1 n1).difficulty ≤ (set_difficulty b2 n2).difficulty) ∧
    (exponent n1 < exponent n2 → n1 &&& 0xFFFFFF = n2 &&& 0xFFFFFF →
      n1 &&& 0xFFFFFF ≠ 0 →
      (set_difficulty b1 n1).difficulty < (set_difficulty b2 n2).difficulty) := by
  rw [set_difficulty_eq b1 n1 h1 he1, set_difficulty_eq b2 n2 h2 he2]
  have hk1 : 32 - exponent n1 + 2 < 32 := by omega
  have hk2 : 32 - exponent n2 + 2 < 32 := by omega
  have hb1 := mantissa_at_bytes (32 - exponent n1) _ _ _ hk1 (and_255_lt (n1 >>> 16))
    (and_255_lt (n1 >>> 8)) (and_255_lt n1)
  have hb2 := mantissa_at_bytes (32 - exponent n2) _ _ _ hk2 (and_255_lt (n2 >>> 16))
    (and_255_lt (n2 >>> 8)) (and_255_lt n2)
  have hlen : (mantissa_at (32 - exponent n1) ((n1 >>> 16) &&& 0xFF) ((n1 >>> 8) &&& 0xFF)
      (n1 &&& 0xFF)).length = (mantissa_at (32 - exponent n2) ((n2 >>> 16) &&& 0xFF)
      ((n2 >>> 8) &&& 0xFF) (n2 &&& 0xFF)).length := by
    rw [mantissa_at_length, mantissa_at_length]
  constructor
  · intro he hm
    apply lex_le_of_be_le _ _ hlen hb1 hb2
    rw [be_value_mantissa_at _ _ _ _ hk1, be_value_mantissa_at _ _ _ _ hk2,
      ← mantissa_split, ← mantissa_split, he]
    exact Nat.mul_le_mul_right _ hm
  · intro he hm hne
    apply lex_lt_of_be_lt _ _ hlen hb1 hb2
    rw [be_value_mantissa_at _ _ _ _ hk1, be_value_mantissa_at _ _ _ _ hk2,
      ← mantissa_split, ← mantissa_split, ← hm]
    have hpow : 256 ^ (29 - (32 - exponent n1)) < 256 ^ (29 - (32 - exponent n2)) :=
      Nat.pow_lt_pow_right (by omega) (by omega)
    exact Nat.mul_lt_mul_of_pos_left hpow (Nat.pos_of_ne_zero hne)

theorem set_difficulty_lex_monotone_witness :
    (List.replicate 32 0x00).length = 32 ∧ (List.replicate 32 0xFF).length = 32 ∧
    (3 ≤ exponent 0x1b0404cb ∧ exponent 0x1b0404cb ≤ 32) ∧
    (3 ≤ exponent 0x1d0404cb ∧ exponent 0x1d0404cb ≤ 32) ∧
    (set_difficulty (List.replicate 32 0x00) 0x1b0404cb).difficulty <
      (set_difficulty (List.replicate 32 0xFF) 0x1d0404cb).difficulty ∧
    (set_difficulty (List.replicate 32 0x00) 0x1b0404cb).difficulty ≤
      (set_difficulty (List.replicate 32 0xFF) 0x1b04ffff).difficulty :=
  ⟨by decide, by decide, by decide, by decide,
    (set_difficulty_lex_monotone (List.replicate 32 0x00) (List.replicate 32 0xFF)
      0x1b0404cb 0x1d0404cb (by decide) (by decide) (by decide) (by decide)).2
      (by decide) (by decide) (by decide),
    (set_difficulty_lex_monotone (List.replicate 32 0x00) (List.replicate 32 0xFF)
      0x1b0404cb 0x1b04ffff (by decide) (by decide) (by decide) (by decide)).1
      (by decide) (by decide)⟩

end CudaBitcoinMiner
